import Mathlib

/-!
A shallow embedding of the declaration-level semantic diff engine of
`change_analyzer.py`, together with theorems settling the specification
claims about it.

The embedded parts are:
* `remove_comments_and_normalize` (source lines 149-203): the text
  normalizer, modelled line-by-line exactly as the Python scanner — split
  on `'\n'`, scan each line with one `in_multiline_comment` flag, strip
  each processed line, keep the non-empty ones and join them with single
  spaces.  The Python `find`-and-jump loop is rendered as an equivalent
  character-by-character scan (`scanLine`): both consume text up to the
  first occurrence of `//` / `/*` (outside a block comment) or `*/`
  (inside one), with `//` taking priority at an earlier index.
* `compare_methods` (lines 205-216).
* `find_changed_methods` (lines 218-289): the diff engine over two
  declaration catalogs.  Python `dict` comprehensions keyed by name are
  modelled by `dictOfList`: association lists in first-insertion order
  with last-value-wins on duplicate keys, exactly `dict`'s semantics.
* the per-file analysis loop of `analyze_changes` (lines 472-551).
  Fetching file contents, tree-sitter parsing and `extract_contracts`
  consume external capabilities (git, the grammar), so the composition
  `extract_contracts ∘ parse_solidity_file` is a parameter `extract` of
  the model, as the spec's §6 treats it.  The ignore-pattern filter and
  the audit-service upload (lines 553-605) are external orchestration and
  out of the modelled core; `analyze_changes` returns `result` regardless
  of them.

`Method` keeps the `name` and `text` fields of the Python method dicts;
the `node` field is an opaque tree-sitter handle never consulted by the
diff logic (only `name` and `text` are) and is omitted.
-/

namespace ChangeAnalyzer

/-- Python `str.isspace` for a single character: true on the Unicode
whitespace characters Python strips (`str.strip` with no argument). -/
def pyIsSpace (c : Char) : Bool :=
  let n := c.toNat
  (9 ≤ n && n ≤ 13) || n = 32 || (28 ≤ n && n ≤ 31) || n = 0x85 || n = 0xA0 ||
  n = 0x1680 || (0x2000 ≤ n && n ≤ 0x200A) || n = 0x2028 || n = 0x2029 ||
  n = 0x202F || n = 0x205F || n = 0x3000

/-- Python `str.strip()`: drop whitespace from both ends. -/
def pyStrip (s : List Char) : List Char :=
  ((s.dropWhile pyIsSpace).reverse.dropWhile pyIsSpace).reverse

/-- Python `text.split("\n")`. -/
def splitNL : List Char → List (List Char)
  | [] => [[]]
  | c :: cs =>
    if c = '\n' then [] :: splitNL cs
    else
      match splitNL cs with
      | [] => [[c]]
      | l :: ls => (c :: l) :: ls

/-- The body of the `while i < len(line)` loop of
`remove_comments_and_normalize` (source lines 155-197), as a left-to-right
scan.  First argument is the `in_multiline_comment` flag; returns the
`processed_line` together with the flag's value at the end of the line.
Inside a block comment characters are discarded until `*/`; outside one,
`//` discards the rest of the line and `/*` opens a block comment, the
earlier marker winning — exactly what the Python `find`-based loop does. -/
def scanLine : Bool → List Char → List Char × Bool
  | inML, [] => ([], inML)
  | inML, [c] => if inML then ([], true) else ([c], false)
  | true, a :: b :: cs =>
    if a == '*' && b == '/' then scanLine false cs
    else scanLine true (b :: cs)
  | false, a :: b :: cs =>
    if a == '/' && b == '/' then ([], false)
    else if a == '/' && b == '*' then scanLine true cs
    else
      let r := scanLine false (b :: cs)
      (a :: r.1, r.2)

/-- The `for line in lines` loop (source lines 155-201): process each line,
strip it, keep it if non-empty; the `in_multiline_comment` flag persists
across lines. -/
def processLines : Bool → List (List Char) → List (List Char)
  | _, [] => []
  | inML, line :: rest =>
    let r := scanLine inML line
    let processed := pyStrip r.1
    if processed.isEmpty then processLines r.2 rest
    else processed :: processLines r.2 rest

/-- Python `" ".join(result)`. -/
def joinSpace : List (List Char) → List Char
  | [] => []
  | [l] => l
  | l :: l' :: ls => l ++ ' ' :: joinSpace (l' :: ls)

/-- `remove_comments_and_normalize` on a character list. -/
def normalizeL (text : List Char) : List Char :=
  joinSpace (processLines false (splitNL text))

/-- `remove_comments_and_normalize` (source lines 149-203). -/
def remove_comments_and_normalize (text : String) : String :=
  (normalizeL text.toList).asString

/-- A member dict produced by `extract_contracts` (source lines 134-138);
the opaque `node` field is omitted (never consulted by the diff logic). -/
structure Method where
  name : String
  text : String
deriving DecidableEq

/-- A declaration dict produced by `extract_contracts` (source lines
140-145); `ctype` is the `"type"` key (`"contract"`, `"library"` or
`"interface"`), `node` omitted as above. -/
structure Contract where
  name : String
  ctype : String
  methods : List Method
deriving DecidableEq

/-- `compare_methods` (source lines 205-216): strip, normalize, compare. -/
def compare_methods (old_method new_method : Method) : Bool :=
  let old_text := remove_comments_and_normalize (pyStrip old_method.text.toList).asString
  let new_text := remove_comments_and_normalize (pyStrip new_method.text.toList).asString
  old_text != new_text

/-- One entry of the `changed_methods` list of `find_changed_methods`.
A record for a modified member has no `"status"` key in the Python dict,
modelled as `mstatus = none`; added and deleted members carry
`some "added"` / `some "deleted"`. -/
structure MemberChange where
  contract : String
  contract_type : String
  method : String
  mstatus : Option String
deriving DecidableEq

/-- One step of building a Python `dict` keyed by `key`: overwrite the
value in place if the key is present, append otherwise. -/
def dictInsert {α : Type} (key : α → String) (acc : List α) (x : α) : List α :=
  if acc.any (fun y => key y == key x) then
    acc.map (fun y => if key y == key x then x else y)
  else acc ++ [x]

/-- A Python `dict` built from `xs` keyed by `key`, as the list of its
values in iteration (first-insertion) order, with last-value-wins on
duplicate keys — the semantics of `{key(x): x for x in xs}`. -/
def dictOfList {α : Type} (key : α → String) (xs : List α) : List α :=
  xs.foldl (dictInsert key) []

/-- `{contract["name"]: contract for contract in contracts}`
(source lines 227-228). -/
def mkContractMap (contracts : List Contract) : List Contract :=
  dictOfList Contract.name contracts

/-- `{method["name"]: method for method in methods}`
(source lines 236-237). -/
def mkMethodMap (methods : List Method) : List Method :=
  dictOfList Method.name methods

/-- The body of the `for method_name, head_method in head_method_map.items()`
loop (source lines 240-256): a member in both maps yields a record without
`"status"` when `compare_methods` says the texts differ, a head-only
member yields an `added` record. -/
def matchedMethodChange (head_contract : Contract)
    (base_method_map : List Method) (head_method : Method) :
    List MemberChange :=
  match base_method_map.find? (fun m => m.name == head_method.name) with
  | some base_method =>
    if compare_methods base_method head_method then
      [{ contract := head_contract.name, contract_type := head_contract.ctype,
         method := head_method.name, mstatus := none }]
    else []
  | none =>
    [{ contract := head_contract.name, contract_type := head_contract.ctype,
       method := head_method.name, mstatus := some "added" }]

/-- The body of the `for method_name in base_method_map` loop (source
lines 259-266): a base-only member yields a `deleted` record. -/
def deletedMethodChange (head_contract base_contract : Contract)
    (head_method_map : List Method) (base_method : Method) :
    List MemberChange :=
  if head_method_map.any (fun m => m.name == base_method.name) then []
  else
    [{ contract := head_contract.name, contract_type := base_contract.ctype,
       method := base_method.name, mstatus := some "deleted" }]

/-- The body of the
`for contract_name, head_contract in head_contract_map.items()` loop
(source lines 231-275): a contract present in both maps is diffed member
by member; a head-only contract has all its members reported `added`. -/
def headContractChanges (base_contract_map : List Contract)
    (head_contract : Contract) : List MemberChange :=
  match base_contract_map.find? (fun c => c.name == head_contract.name) with
  | some base_contract =>
    let base_method_map := mkMethodMap base_contract.methods
    let head_method_map := mkMethodMap head_contract.methods
    (head_method_map.flatMap (matchedMethodChange head_contract base_method_map))
    ++ (base_method_map.flatMap
      (deletedMethodChange head_contract base_contract head_method_map))
  | none =>
    head_contract.methods.map (fun m =>
      { contract := head_contract.name, contract_type := head_contract.ctype,
        method := m.name, mstatus := some "added" })

/-- The body of the `for contract_name in base_contract_map` loop (source
lines 278-287): a base-only contract has all its members reported
`deleted`. -/
def deletedContractChanges (head_contract_map : List Contract)
    (base_contract : Contract) : List MemberChange :=
  if head_contract_map.any (fun c => c.name == base_contract.name) then []
  else base_contract.methods.map (fun m =>
    { contract := base_contract.name, contract_type := base_contract.ctype,
      method := m.name, mstatus := some "deleted" })

/-- `find_changed_methods` (source lines 218-289), over the two extracted
declaration catalogs. -/
def find_changed_methods (base_contracts head_contracts : List Contract) :
    List MemberChange :=
  let base_contract_map := mkContractMap base_contracts
  let head_contract_map := mkContractMap head_contracts
  (head_contract_map.flatMap (headContractChanges base_contract_map))
  ++ (base_contract_map.flatMap (deletedContractChanges head_contract_map))

/-- One `ContractChangeSummary` of the report (`contract_entry` /
`contract_changes[...]` in the source). -/
structure ContractEntry where
  name : String
  ctype : String
  methods : List String
deriving DecidableEq

/-- One `file_entry` of the final report. -/
structure FileEntry where
  file : String
  fstatus : String
  contracts : List ContractEntry
deriving DecidableEq

/-- The inputs the per-file loop of `analyze_changes` consumes for one
changed file: its path, its git status letter, and the raw contents at the
head and base commits (`""` models content the base lookup failed to
produce, which Python tests with `if not base_content`). -/
structure FileInput where
  path : String
  fstatus : String
  headContent : String
  baseContent : String
deriving DecidableEq

/-- The body of the `for change in changed_methods` loop of
`analyze_changes` (source lines 531-542): create the contract's entry on
first sight (with this change's `contract_type` and an empty method list),
then append the method name exactly when the change has no `"status"` key
(i.e. is a modification). -/
def groupStep (acc : List ContractEntry) (change : MemberChange) :
    List ContractEntry :=
  if acc.any (fun e => e.name == change.contract) then
    if change.mstatus = none then
      acc.map (fun e =>
        if e.name == change.contract then
          { e with methods := e.methods ++ [change.method] }
        else e)
    else acc
  else
    acc ++ [{ name := change.contract, ctype := change.contract_type,
              methods := if change.mstatus = none then [change.method] else [] }]

/-- The grouping of `changed_methods` by contract (source lines 529-542):
a dict keyed by contract name in first-insertion order, collecting the
method names of the changes that have no `"status"` key. -/
def groupChanges (changed_methods : List MemberChange) : List ContractEntry :=
  changed_methods.foldl groupStep []

/-- The per-file analysis loop of `analyze_changes` (source lines
482-551), parameterized by the external extraction capability
`extract = extract_contracts ∘ parse_solidity_file` of §6.  A status-`"A"`
file yields an entry listing every extracted declaration with all its
member names; a status-`"M"` file with empty base content is skipped;
otherwise the diff engine runs and the entry is kept when its grouped
contract list is non-empty. -/
def analyze_changes (extract : String → List Contract) :
    List FileInput → List FileEntry
  | [] => []
  | f :: fs =>
    let rest := analyze_changes extract fs
    if f.fstatus == "A" then
      { file := f.path, fstatus := f.fstatus,
        contracts := (extract f.headContent).map (fun c =>
          { name := c.name, ctype := c.ctype,
            methods := c.methods.map (fun m => m.name) }) } :: rest
    else if f.fstatus == "M" then
      if f.baseContent == "" then rest
      else if (groupChanges (find_changed_methods (extract f.baseContent)
          (extract f.headContent))).isEmpty then rest
      else
        { file := f.path, fstatus := f.fstatus,
          contracts := groupChanges (find_changed_methods (extract f.baseContent)
            (extract f.headContent)) } :: rest
    else rest

/-! ### Auxiliary definitions used to state the claims -/

/-- `hasPair a b s` is true when `s` contains the two-character sequence
`a, b` at consecutive positions (i.e. the substring `⟨a, b⟩`). -/
def hasPair (a b : Char) : List Char → Bool
  | x :: y :: r => (x == a && y == b) || hasPair a b (y :: r)
  | _ => false

/-- The invariant of every line the normalizer keeps: non-empty, no
leading or trailing whitespace, no surviving comment opener (`//` or
`/*`), no newline character. -/
def GoodLine (l : List Char) : Prop :=
  l ≠ [] ∧ (∀ c, l.head? = some c → pyIsSpace c = false) ∧
  (∀ c, l.getLast? = some c → pyIsSpace c = false) ∧
  hasPair '/' '/' l = false ∧ hasPair '/' '*' l = false ∧ '\n' ∉ l

/-- Reformatting of a text, viewed as its list of lines: the same lines in
the same order, each with possibly different leading whitespace
(indentation), with whitespace-only (blank) lines freely inserted or
removed on either side.  This is the spec's notion of "reformatting
(adding/removing blank lines, indentation)". -/
inductive Reformat : List (List Char) → List (List Char) → Prop
  | nil : Reformat [] []
  | line (ws ws' l : List Char) {ls ls' : List (List Char)} :
      (∀ c ∈ ws, pyIsSpace c = true) → (∀ c ∈ ws', pyIsSpace c = true) →
      Reformat ls ls' → Reformat ((ws ++ l) :: ls) ((ws' ++ l) :: ls')
  | blankL (b : List Char) {ls ls' : List (List Char)} :
      (∀ c ∈ b, pyIsSpace c = true) → Reformat ls ls' → Reformat (b :: ls) ls'
  | blankR (b : List Char) {ls ls' : List (List Char)} :
      (∀ c ∈ b, pyIsSpace c = true) → Reformat ls ls' → Reformat ls (b :: ls')

/-! ### Lemmas about the text normalizer -/

/-- Induction on a character list that recurses on both the tail and the
tail of the tail, matching the recursion pattern of `scanLine`. -/
theorem pairInduction {motive : List Char → Prop} (h0 : motive [])
    (h1 : ∀ c, motive [c])
    (h2 : ∀ a b cs, motive cs → motive (b :: cs) → motive (a :: b :: cs)) :
    ∀ cs, motive cs
  | [] => h0
  | [c] => h1 c
  | a :: b :: cs =>
    h2 a b cs (pairInduction h0 h1 h2 cs) (pairInduction h0 h1 h2 (b :: cs))

theorem hasPair_tail {a b x : Char} {l : List Char}
    (h : hasPair a b (x :: l) = false) : hasPair a b l = false := by
  cases l with
  | nil => rfl
  | cons y r =>
    have := h
    simp only [hasPair, Bool.or_eq_false_iff] at this
    exact this.2

theorem hasPair_append {a b : Char} {l₁ l₂ : List Char}
    (h : hasPair a b (l₁ ++ l₂) = false) :
    hasPair a b l₁ = false ∧ hasPair a b l₂ = false := by
  induction l₁ with
  | nil => exact ⟨rfl, h⟩
  | cons x l₁ ih =>
    have htail : hasPair a b (l₁ ++ l₂) = false := hasPair_tail h
    obtain ⟨h₁, h₂⟩ := ih htail
    refine ⟨?_, h₂⟩
    cases l₁ with
    | nil => rfl
    | cons y l₁' =>
      simp only [List.cons_append, hasPair, Bool.or_eq_false_iff] at h ⊢
      exact ⟨h.1, h₁⟩

/-- An intro rule for pair-freedom of an append: both sides pair-free and
the boundary does not form the pair. -/
theorem hasPair_append_intro {a b : Char} {l₁ l₂ : List Char}
    (h₁ : hasPair a b l₁ = false) (h₂ : hasPair a b l₂ = false)
    (hb : ¬(l₁.getLast? = some a ∧ l₂.head? = some b)) :
    hasPair a b (l₁ ++ l₂) = false := by
  induction l₁ with
  | nil => exact h₂
  | cons x l₁ ih =>
    cases l₁ with
    | nil =>
      cases l₂ with
      | nil => rfl
      | cons d r =>
        simp only [List.getLast?_singleton, List.head?_cons] at hb
        simp only [List.singleton_append, hasPair, Bool.or_eq_false_iff]
        refine ⟨?_, h₂⟩
        by_cases hx : x = a
        · have hd : d ≠ b := fun hd => hb ⟨by rw [hx], by rw [hd]⟩
          simp [hd]
        · simp [hx]
    | cons y l₁' =>
      simp only [List.cons_append, hasPair, Bool.or_eq_false_iff] at h₁ ⊢
      refine ⟨h₁.1, ?_⟩
      have : (y :: l₁').getLast? = (x :: y :: l₁').getLast? := by
        simp [List.getLast?_cons_cons]
      exact ih h₁.2 (by rw [this]; exact hb)

theorem hasPair_dropWhile {a b : Char} {q : Char → Bool} {l : List Char}
    (h : hasPair a b l = false) : hasPair a b (l.dropWhile q) = false := by
  have : l.takeWhile q ++ l.dropWhile q = l := List.takeWhile_append_dropWhile q l
  rw [← this] at h
  exact (hasPair_append h).2

theorem head?_dropWhile {q : Char → Bool} {l : List Char} {c : Char}
    (h : (l.dropWhile q).head? = some c) : q c = false := by
  induction l with
  | nil => simp [List.dropWhile] at h
  | cons x xs ih =>
    rw [List.dropWhile_cons] at h
    by_cases hx : q x = true
    · rw [if_pos hx] at h
      exact ih h
    · rw [if_neg hx] at h
      simp only [List.head?_cons, Option.some.injEq] at h
      subst h
      exact Bool.eq_false_iff.mpr hx

theorem dropWhile_eq_self {q : Char → Bool} {l : List Char}
    (h : ∀ c, l.head? = some c → q c = false) : l.dropWhile q = l := by
  cases l with
  | nil => rfl
  | cons x xs =>
    rw [List.dropWhile_cons, if_neg]
    simp [h x rfl]

theorem dropWhile_ws_append {q : Char → Bool} {ws : List Char}
    (hws : ∀ c ∈ ws, q c = true) (l : List Char) :
    (ws ++ l).dropWhile q = l.dropWhile q := by
  induction ws with
  | nil => rfl
  | cons c ws ih =>
    rw [List.cons_append, List.dropWhile_cons, if_pos (by simp [hws c (by simp)])]
    exact ih (fun c hc => hws c (by simp [hc]))

/-- `pyStrip s` occurs inside `s` between two discarded stretches. -/
theorem pyStrip_factor (s : List Char) : ∃ u w, s = u ++ pyStrip s ++ w := by
  refine ⟨s.takeWhile pyIsSpace,
    (((s.dropWhile pyIsSpace).reverse.takeWhile pyIsSpace)).reverse, ?_⟩
  unfold pyStrip
  conv_lhs => rw [← List.takeWhile_append_dropWhile pyIsSpace s]
  rw [List.append_assoc]
  congr 1
  conv_lhs => rw [← List.reverse_reverse (s.dropWhile pyIsSpace)]
  conv_lhs =>
    rw [← List.takeWhile_append_dropWhile pyIsSpace (s.dropWhile pyIsSpace).reverse]
  rw [List.reverse_append]

theorem mem_pyStrip {c : Char} {s : List Char} (h : c ∈ pyStrip s) : c ∈ s := by
  obtain ⟨u, w, hs⟩ := pyStrip_factor s
  rw [hs]
  simp [h]

theorem hasPair_pyStrip {a b : Char} {s : List Char}
    (h : hasPair a b s = false) : hasPair a b (pyStrip s) = false := by
  obtain ⟨u, w, hs⟩ := pyStrip_factor s
  rw [hs] at h
  exact (hasPair_append (hasPair_append h).1).2

theorem pyStrip_head {s : List Char} {c : Char}
    (h : (pyStrip s).head? = some c) : pyIsSpace c = false := by
  unfold pyStrip at h
  have h2 : ((s.dropWhile pyIsSpace).reverse.dropWhile pyIsSpace).reverse ≠ [] := by
    intro hnil
    rw [hnil] at h
    simp at h
  have h3 : (s.dropWhile pyIsSpace).head? = some c := by
    have hfac : ∀ t : List Char, (t.reverse.dropWhile pyIsSpace).reverse ≠ [] →
        ((t.reverse.dropWhile pyIsSpace).reverse).head? = t.head? := by
      intro t hne
      conv_rhs => rw [← List.reverse_reverse t]
      conv_rhs =>
        rw [← List.takeWhile_append_dropWhile pyIsSpace t.reverse, List.reverse_append]
      rw [List.head?_append_of_ne_nil _ hne]
    rw [← hfac (s.dropWhile pyIsSpace) h2]
    exact h
  exact head?_dropWhile h3

theorem pyStrip_getLast {s : List Char} {c : Char}
    (h : (pyStrip s).getLast? = some c) : pyIsSpace c = false := by
  unfold pyStrip at h
  rw [List.getLast?_reverse] at h
  exact head?_dropWhile h

theorem pyStrip_eq_self {s : List Char}
    (hh : ∀ c, s.head? = some c → pyIsSpace c = false)
    (hl : ∀ c, s.getLast? = some c → pyIsSpace c = false) : pyStrip s = s := by
  unfold pyStrip
  rw [dropWhile_eq_self hh, dropWhile_eq_self, List.reverse_reverse]
  intro c hc
  rw [List.head?_reverse] at hc
  exact hl c hc

theorem pyStrip_ws_append {ws : List Char} (hws : ∀ c ∈ ws, pyIsSpace c = true)
    (l : List Char) : pyStrip (ws ++ l) = pyStrip l := by
  unfold pyStrip
  rw [dropWhile_ws_append hws]

theorem pyStrip_all_space {b : List Char} (hb : ∀ c ∈ b, pyIsSpace c = true) :
    pyStrip b = [] := by
  have := pyStrip_ws_append hb []
  rw [List.append_nil] at this
  rw [this]
  rfl

/-! #### `splitNL` lemmas -/

theorem splitNL_ne_nil (s : List Char) : splitNL s ≠ [] := by
  cases s with
  | nil => simp [splitNL]
  | cons c cs =>
    rw [splitNL]
    by_cases h : c = '\n'
    · simp [h]
    · rw [if_neg h]
      rcases hs : splitNL cs with _ | ⟨l, ls⟩ <;> simp

theorem mem_splitNL_no_newline {s : List Char} {l : List Char}
    (h : l ∈ splitNL s) : '\n' ∉ l := by
  induction s generalizing l with
  | nil =>
    simp only [splitNL, List.mem_singleton] at h
    subst h
    simp
  | cons c cs ih =>
    rw [splitNL] at h
    by_cases hc : c = '\n'
    · rw [if_pos hc] at h
      rcases List.mem_cons.mp h with h | h
      · subst h; simp
      · exact ih h
    · rw [if_neg hc] at h
      rcases hs : splitNL cs with _ | ⟨l₀, ls⟩
      · exact absurd hs (splitNL_ne_nil cs)
      · rw [hs] at h
        rcases List.mem_cons.mp h with h | h
        · subst h
          intro hmem
          rcases List.mem_cons.mp hmem with h | h
          · exact hc h.symm
          · exact ih (l := l₀) (by rw [hs]; exact List.mem_cons_self _ _) h
        · exact ih (by rw [hs]; exact List.mem_cons_of_mem _ h)

theorem splitNL_no_newline {s : List Char} (h : '\n' ∉ s) : splitNL s = [s] := by
  induction s with
  | nil => rfl
  | cons c cs ih =>
    rw [splitNL, if_neg (by intro hc; exact h (by simp [hc]))]
    rw [ih (fun hmem => h (List.mem_cons_of_mem _ hmem))]

/-! #### `scanLine` lemmas -/

theorem pyIsSpace_ne_slash {c : Char} (h : pyIsSpace c = true) : c ≠ '/' := by
  intro hc
  rw [hc] at h
  exact absurd h (by decide)

theorem pyIsSpace_ne_star {c : Char} (h : pyIsSpace c = true) : c ≠ '*' := by
  intro hc
  rw [hc] at h
  exact absurd h (by decide)

/-- Every character the scanner emits comes from the input line. -/
theorem scanLine_mem : ∀ cs : List Char, ∀ inML : Bool, ∀ c ∈ (scanLine inML cs).1,
    c ∈ cs := by
  intro cs
  induction cs using pairInduction with
  | h0 => intro inML c hc; cases inML <;> simp [scanLine] at hc
  | h1 c' =>
    intro inML c hc
    cases inML <;> simp [scanLine] at hc
    simp [hc]
  | h2 a b cs ih1 ih2 =>
    intro inML c hc
    cases inML
    case true =>
      rw [scanLine] at hc
      by_cases h : (a == '*' && b == '/') = true
      · rw [if_pos h] at hc
        exact List.mem_cons_of_mem _ (List.mem_cons_of_mem _ (ih1 false c hc))
      · rw [if_neg h] at hc
        exact List.mem_cons_of_mem _ (ih2 true c hc)
    case false =>
      rw [scanLine] at hc
      by_cases h1c : (a == '/' && b == '/') = true
      · rw [if_pos h1c] at hc
        simp at hc
      · rw [if_neg h1c] at hc
        by_cases h2c : (a == '/' && b == '*') = true
        · rw [if_pos h2c] at hc
          exact List.mem_cons_of_mem _ (List.mem_cons_of_mem _ (ih1 true c hc))
        · rw [if_neg h2c] at hc
          simp only [List.mem_cons] at hc
          rcases hc with hc | hc
          · simp [hc]
          · exact List.mem_cons_of_mem _ (ih2 false c hc)

/-- Outside a block comment, a line starting with a non-slash character
keeps that character as the head of the scanner's output. -/
theorem scanLine_false_head {b : Char} (hb : b ≠ '/') (cs : List Char) :
    ∃ r, (scanLine false (b :: cs)).1 = b :: r := by
  cases cs with
  | nil => exact ⟨[], rfl⟩
  | cons c cs' =>
    rw [scanLine, if_neg (by simp [hb]), if_neg (by simp [hb])]
    exact ⟨_, rfl⟩

/-- The scanner's output never contains `//` or `/*`: they are always
consumed as comment markers. -/
theorem scanLine_noPair : ∀ cs : List Char, ∀ inML : Bool,
    hasPair '/' '/' (scanLine inML cs).1 = false ∧
    hasPair '/' '*' (scanLine inML cs).1 = false := by
  intro cs
  induction cs using pairInduction with
  | h0 => intro inML; cases inML <;> exact ⟨rfl, rfl⟩
  | h1 c => intro inML; cases inML <;> simp [scanLine, hasPair]
  | h2 a b cs ih1 ih2 =>
    intro inML
    cases inML
    case true =>
      rw [scanLine]
      by_cases h : (a == '*' && b == '/') = true
      · rw [if_pos h]; exact ih1 false
      · rw [if_neg h]; exact ih2 true
    case false =>
      rw [scanLine]
      by_cases h1c : (a == '/' && b == '/') = true
      · rw [if_pos h1c]; exact ⟨rfl, rfl⟩
      · rw [if_neg h1c]
        by_cases h2c : (a == '/' && b == '*') = true
        · rw [if_pos h2c]; exact ih1 true
        · rw [if_neg h2c]
          obtain ⟨hp1, hp2⟩ := ih2 false
          by_cases ha : a = '/'
          · have hb1 : b ≠ '/' := by
              intro hb; exact h1c (by simp [ha, hb])
            have hb2 : b ≠ '*' := by
              intro hb; exact h2c (by simp [ha, hb])
            obtain ⟨r, hr⟩ := scanLine_false_head hb1 cs
            rw [hr] at hp1 hp2
            constructor
            · show hasPair '/' '/' (a :: (scanLine false (b :: cs)).1) = false
              rw [hr]
              simp only [hasPair, Bool.or_eq_false_iff]
              exact ⟨by simp [hb1], hp1⟩
            · show hasPair '/' '*' (a :: (scanLine false (b :: cs)).1) = false
              rw [hr]
              simp only [hasPair, Bool.or_eq_false_iff]
              exact ⟨by simp [hb2], hp2⟩
          · cases hout : (scanLine false (b :: cs)).1 with
            | nil =>
              constructor
              · show hasPair '/' '/' (a :: (scanLine false (b :: cs)).1) = false
                rw [hout]; rfl
              · show hasPair '/' '*' (a :: (scanLine false (b :: cs)).1) = false
                rw [hout]; rfl
            | cons y r =>
              rw [hout] at hp1 hp2
              constructor
              · show hasPair '/' '/' (a :: (scanLine false (b :: cs)).1) = false
                rw [hout]
                simp only [hasPair, Bool.or_eq_false_iff]
                exact ⟨by simp [ha], hp1⟩
              · show hasPair '/' '*' (a :: (scanLine false (b :: cs)).1) = false
                rw [hout]
                simp only [hasPair, Bool.or_eq_false_iff]
                exact ⟨by simp [ha], hp2⟩

/-- On text containing no `//` and no `/*`, the scanner copies its input
verbatim and ends outside a block comment. -/
theorem scanLine_id : ∀ cs : List Char, hasPair '/' '/' cs = false →
    hasPair '/' '*' cs = false → scanLine false cs = (cs, false) := by
  intro cs
  induction cs using pairInduction with
  | h0 => intro _ _; rfl
  | h1 c => intro _ _; rfl
  | h2 a b cs ih1 ih2 =>
    intro h1 h2
    have hh1 : (a == '/' && b == '/') = false := by
      simp only [hasPair, Bool.or_eq_false_iff] at h1
      exact h1.1
    have hh2 : (a == '/' && b == '*') = false := by
      simp only [hasPair, Bool.or_eq_false_iff] at h2
      exact h2.1
    rw [scanLine, if_neg (by simp [hh1]), if_neg (by simp [hh2])]
    have := ih2 (hasPair_tail h1) (hasPair_tail h2)
    simp [this]

/-- Leading whitespace is irrelevant inside a block comment. -/
theorem scanLine_true_ws : ∀ ws : List Char, (∀ c ∈ ws, pyIsSpace c = true) →
    ∀ l, scanLine true (ws ++ l) = scanLine true l := by
  intro ws
  induction ws with
  | nil => intro _ l; rfl
  | cons c ws ih =>
    intro hws l
    have hc : pyIsSpace c = true := hws c (by simp)
    rw [List.cons_append]
    cases hwl : ws ++ l with
    | nil =>
      obtain ⟨hw, hl⟩ := List.append_eq_nil.mp hwl
      subst hl
      simp [scanLine]
    | cons y rest =>
      rw [scanLine, if_neg (by simp [pyIsSpace_ne_star hc]), ← hwl]
      exact ih (fun d hd => hws d (by simp [hd])) l

/-- Outside a block comment, leading whitespace is copied through the
scanner unchanged. -/
theorem scanLine_false_ws : ∀ ws : List Char, (∀ c ∈ ws, pyIsSpace c = true) →
    ∀ l, scanLine false (ws ++ l) =
      (ws ++ (scanLine false l).1, (scanLine false l).2) := by
  intro ws
  induction ws with
  | nil => intro _ l; rfl
  | cons c ws ih =>
    intro hws l
    have hc : pyIsSpace c = true := hws c (by simp)
    rw [List.cons_append]
    cases hwl : ws ++ l with
    | nil =>
      obtain ⟨hw, hl⟩ := List.append_eq_nil.mp hwl
      subst hl
      subst hw
      simp [scanLine]
    | cons y rest =>
      rw [scanLine, if_neg (by simp [pyIsSpace_ne_slash hc]),
        if_neg (by simp [pyIsSpace_ne_slash hc]), ← hwl]
      rw [ih (fun d hd => hws d (by simp [hd])) l]
      rfl

/-! #### `processLines` and `joinSpace` lemmas -/

/-- Every line the normalizer keeps satisfies `GoodLine`. -/
theorem processLines_good : ∀ (ls : List (List Char)) (inML : Bool),
    (∀ line ∈ ls, '\n' ∉ line) → ∀ l ∈ processLines inML ls, GoodLine l := by
  intro ls
  induction ls with
  | nil => intro inML _ l hl; simp [processLines] at hl
  | cons line rest ih =>
    intro inML hnl l hl
    have hnline : '\n' ∉ line := hnl line (by simp)
    have hnrest : ∀ x ∈ rest, '\n' ∉ x := fun x hx => hnl x (by simp [hx])
    rw [processLines] at hl
    split at hl
    · exact ih _ hnrest l hl
    · rcases List.mem_cons.mp hl with hl | hl
      · subst hl
        rename_i hne
        refine ⟨?_, fun c => pyStrip_head, fun c => pyStrip_getLast, ?_, ?_, ?_⟩
        · intro hemp
          exact hne (by rw [hemp]; rfl)
        · exact hasPair_pyStrip (scanLine_noPair line inML).1
        · exact hasPair_pyStrip (scanLine_noPair line inML).2
        · intro hmem
          exact hnline (scanLine_mem line inML '\n' (mem_pyStrip hmem))
      · exact ih _ hnrest l hl

theorem joinSpace_cons_ne_nil {l : List Char} (hl : l ≠ [])
    (ls : List (List Char)) : joinSpace (l :: ls) ≠ [] := by
  cases ls with
  | nil => exact hl
  | cons l' ls' =>
    rw [joinSpace]
    simp

/-- The joined result inherits all `GoodLine` properties except
non-emptiness. -/
theorem joinSpace_good : ∀ ls : List (List Char), (∀ l ∈ ls, GoodLine l) →
    ('\n' ∉ joinSpace ls) ∧
    (∀ c, (joinSpace ls).head? = some c → pyIsSpace c = false) ∧
    (∀ c, (joinSpace ls).getLast? = some c → pyIsSpace c = false) ∧
    hasPair '/' '/' (joinSpace ls) = false ∧
    hasPair '/' '*' (joinSpace ls) = false := by
  intro ls
  induction ls with
  | nil =>
    intro _
    refine ⟨by simp [joinSpace], ?_, ?_, rfl, rfl⟩ <;> intro c hc <;>
      simp [joinSpace] at hc
  | cons l ls ih =>
    intro hg
    obtain ⟨hne, hh, hl, hp1, hp2, hnl⟩ := hg l (by simp)
    cases ls with
    | nil => exact ⟨hnl, hh, hl, hp1, hp2⟩
    | cons l' ls' =>
      have hgrest : ∀ x ∈ l' :: ls', GoodLine x := fun x hx => hg x (by simp [hx])
      obtain ⟨hnlr, hhr, hlr, hp1r, hp2r⟩ := ih hgrest
      have hl'ne : l' ≠ [] := (hgrest l' (by simp)).1
      have hjne : joinSpace (l' :: ls') ≠ [] := joinSpace_cons_ne_nil hl'ne ls'
      rw [joinSpace]
      have hsp : hasPair '/' '/' (' ' :: joinSpace (l' :: ls')) = false ∧
          hasPair '/' '*' (' ' :: joinSpace (l' :: ls')) = false := by
        cases hj : joinSpace (l' :: ls') with
        | nil => exact ⟨rfl, rfl⟩
        | cons y r =>
          rw [hj] at hp1r hp2r
          constructor <;> simp [hasPair, hp1r, hp2r]
      refine ⟨?_, ?_, ?_, ?_, ?_⟩
      · intro hmem
        rcases List.mem_append.mp hmem with hmem | hmem
        · exact hnl hmem
        · rcases List.mem_cons.mp hmem with hmem | hmem
          · exact absurd hmem.symm (by decide)
          · exact hnlr hmem
      · intro c hc
        rw [List.head?_append_of_ne_nil _ hne] at hc
        exact hh c hc
      · intro c hc
        rw [List.getLast?_append_of_ne_nil _ (by simp)] at hc
        cases hj : joinSpace (l' :: ls') with
        | nil => exact absurd hj hjne
        | cons y r =>
          rw [hj] at hc
          rw [List.getLast?_cons_cons] at hc
          apply hlr
          rw [hj]
          exact hc
      · refine hasPair_append_intro hp1 hsp.1 ?_
        intro ⟨_, hhead⟩
        simp at hhead
      · refine hasPair_append_intro hp2 hsp.2 ?_
        intro ⟨_, hhead⟩
        simp at hhead

/-! #### The normalizer invariants -/

/-- The normalizer's output contains no newline, no leading or trailing
whitespace, and no surviving `//` or `/*`. -/
theorem normalizeL_good (t : List Char) :
    ('\n' ∉ normalizeL t) ∧
    (∀ c, (normalizeL t).head? = some c → pyIsSpace c = false) ∧
    (∀ c, (normalizeL t).getLast? = some c → pyIsSpace c = false) ∧
    hasPair '/' '/' (normalizeL t) = false ∧
    hasPair '/' '*' (normalizeL t) = false := by
  unfold normalizeL
  exact joinSpace_good _
    (processLines_good _ false (fun line h => mem_splitNL_no_newline h))

/-- Normalizing an already-normalized text returns it unchanged. -/
theorem normalizeL_idem (t : List Char) :
    normalizeL (normalizeL t) = normalizeL t := by
  obtain ⟨hnl, hh, hl, hp1, hp2⟩ := normalizeL_good t
  by_cases hempty : normalizeL t = []
  · rw [hempty]
    rfl
  · conv_lhs => rw [normalizeL]
    rw [splitNL_no_newline hnl]
    have h1 : processLines false [normalizeL t] = [normalizeL t] := by
      rw [processLines]
      simp only [scanLine_id _ hp1 hp2, pyStrip_eq_self hh hl]
      rw [if_neg]
      · rfl
      · simp [List.isEmpty_iff, hempty]
    rw [h1]
    rfl

/-- Reformatting the list of lines never changes the kept lines or the
comment state threaded through them. -/
theorem processLines_reformat {ls ls' : List (List Char)} (h : Reformat ls ls') :
    ∀ inML, processLines inML ls = processLines inML ls' := by
  induction h with
  | nil => intro _; rfl
  | line ws ws' l hws hws' hr ih =>
    intro inML
    cases inML
    case true =>
      rw [processLines, processLines, scanLine_true_ws ws hws l,
        scanLine_true_ws ws' hws' l]
      split <;> rw [ih]
    case false =>
      rw [processLines, processLines, scanLine_false_ws ws hws l,
        scanLine_false_ws ws' hws' l]
      simp only [pyStrip_ws_append hws, pyStrip_ws_append hws']
      split <;> rw [ih]
  | blankL b hb hr ih =>
    intro inML
    rw [processLines]
    cases inML
    case true =>
      have hsc : scanLine true b = ([], true) := by
        have h := scanLine_true_ws b hb []
        rw [List.append_nil] at h
        rw [h]
        rfl
      simp only [hsc]
      rw [if_pos (show (pyStrip ([] : List Char)).isEmpty = true from rfl)]
      exact ih true
    case false =>
      have hsc : scanLine false b = (b, false) := by
        have h := scanLine_false_ws b hb []
        rw [List.append_nil] at h
        rw [h]
        show (b ++ ([] : List Char), false) = (b, false)
        rw [List.append_nil]
      simp only [hsc, pyStrip_all_space hb]
      rw [if_pos (show ([] : List Char).isEmpty = true from rfl)]
      exact ih false
  | blankR b hb hr ih =>
    intro inML
    conv_rhs => rw [processLines]
    cases inML
    case true =>
      have hsc : scanLine true b = ([], true) := by
        have h := scanLine_true_ws b hb []
        rw [List.append_nil] at h
        rw [h]
        rfl
      simp only [hsc]
      rw [if_pos (show (pyStrip ([] : List Char)).isEmpty = true from rfl)]
      exact ih true
    case false =>
      have hsc : scanLine false b = (b, false) := by
        have h := scanLine_false_ws b hb []
        rw [List.append_nil] at h
        rw [h]
        show (b ++ ([] : List Char), false) = (b, false)
        rw [List.append_nil]
      simp only [hsc, pyStrip_all_space hb]
      rw [if_pos (show ([] : List Char).isEmpty = true from rfl)]
      exact ih false

/-- Reformatting (indentation and blank-line changes) never changes the
normalized text. -/
theorem normalizeL_reformat {s t : List Char}
    (h : Reformat (splitNL s) (splitNL t)) : normalizeL s = normalizeL t := by
  unfold normalizeL
  rw [processLines_reformat h false]

/-! ### Lemmas about the name-keyed `dict` model -/

section Dict

variable {α : Type} (key : α → String)

theorem dictInsert_map_key (acc : List α) (x : α) :
    (dictInsert key acc x).map key = acc.map key ∨
    (dictInsert key acc x).map key = acc.map key ++ [key x] := by
  unfold dictInsert
  split
  · left
    rw [List.map_map]
    apply List.map_congr_left
    intro y _
    by_cases h : key y == key x
    · simp only [Function.comp_apply, if_pos h]
      exact (eq_of_beq h).symm
    · simp only [Function.comp_apply, if_neg h]
  · right
    rw [List.map_append]
    rfl

theorem dictInsert_nodup {acc : List α} (h : (acc.map key).Nodup) (x : α) :
    ((dictInsert key acc x).map key).Nodup := by
  rcases dictInsert_map_key key acc x with hk | hk
  · rw [hk]; exact h
  · rw [hk]
    rcases hin : acc.any (fun y => key y == key x) with _ | _
    · rw [List.nodup_append]
      refine ⟨h, List.nodup_singleton _, ?_⟩
      rw [List.disjoint_singleton]
      intro hmem
      obtain ⟨y, hy, hky⟩ := List.mem_map.mp hmem
      have : acc.any (fun z => key z == key x) = true :=
        List.any_eq_true.mpr ⟨y, hy, by simp [hky]⟩
      rw [hin] at this
      exact absurd this (by simp)
    · exfalso
      unfold dictInsert at hk
      rw [if_pos hin] at hk
      have hlen := congrArg List.length hk
      simp at hlen

theorem foldl_dictInsert_nodup (xs : List α) :
    ∀ acc : List α, ((acc.map key).Nodup) →
    (((xs.foldl (dictInsert key) acc).map key).Nodup) := by
  induction xs with
  | nil => intro acc h; exact h
  | cons x xs ih =>
    intro acc h
    rw [List.foldl_cons]
    exact ih _ (dictInsert_nodup key h x)

/-- The keys of a built dict have no duplicates. -/
theorem dictOfList_nodup (xs : List α) : ((dictOfList key xs).map key).Nodup :=
  foldl_dictInsert_nodup key xs [] List.nodup_nil

/-- In a list with duplicate-free keys, looking up a member's key finds
that member. -/
theorem find?_self_of_nodup {l : List α} (h : (l.map key).Nodup) {x : α}
    (hx : x ∈ l) : l.find? (fun y => key y == key x) = some x := by
  induction l with
  | nil => simp at hx
  | cons a t ih =>
    rw [List.map_cons, List.nodup_cons] at h
    rcases List.mem_cons.mp hx with hx | hx
    · subst hx
      rw [List.find?_cons_of_pos _ (by simp)]
    · have hne : (key a == key x) = false := by
        rw [beq_eq_false_iff_ne]
        intro heq
        exact h.1 (heq ▸ List.mem_map_of_mem key hx)
      rw [List.find?_cons_of_neg _ (by simp [hne])]
      exact ih h.2 hx

theorem mem_dictInsert {acc : List α} {x y : α}
    (h : y ∈ dictInsert key acc x) : y ∈ acc ∨ y = x := by
  unfold dictInsert at h
  split at h
  · obtain ⟨z, hz, hzy⟩ := List.mem_map.mp h
    by_cases hk : key z == key x
    · rw [if_pos hk] at hzy
      right; exact hzy.symm
    · rw [if_neg hk] at hzy
      left; exact hzy ▸ hz
  · rcases List.mem_append.mp h with h | h
    · left; exact h
    · right; simpa using h

theorem mem_foldl_dictInsert {xs : List α} :
    ∀ {acc : List α} {y : α}, y ∈ xs.foldl (dictInsert key) acc →
    y ∈ acc ∨ y ∈ xs := by
  induction xs with
  | nil => intro acc y h; left; exact h
  | cons x xs ih =>
    intro acc y h
    rw [List.foldl_cons] at h
    rcases ih h with h | h
    · rcases mem_dictInsert key h with h | h
      · left; exact h
      · right; simp [h]
    · right; simp [h]

/-- Every value of a built dict is one of the inserted values. -/
theorem mem_dictOfList {xs : List α} {y : α} (h : y ∈ dictOfList key xs) :
    y ∈ xs := by
  rcases mem_foldl_dictInsert key h with h | h
  · simp at h
  · exact h

/-- Inserting a value makes its key look up exactly that value. -/
theorem find?_dictInsert_self (acc : List α) (x : α) :
    (dictInsert key acc x).find? (fun y => key y == key x) = some x := by
  unfold dictInsert
  split
  case isTrue hin =>
    induction acc with
    | nil => simp at hin
    | cons a t ih =>
      by_cases hk : (key a == key x) = true
      · rw [List.map_cons, List.find?_cons_of_pos _ (by simp [if_pos hk, hk])]
        rw [if_pos hk]
      · rw [List.any_cons] at hin
        rw [Bool.or_eq_true] at hin
        rcases hin with hin | hin
        · exact absurd hin hk
        · rw [List.map_cons, List.find?_cons_of_neg _ (by simp [if_neg hk, hk])]
          exact ih hin
  case isFalse hin =>
    rw [List.find?_append]
    have hnone : acc.find? (fun y => key y == key x) = none := by
      rw [List.find?_eq_none]
      intro y hy hp
      exact hin (List.any_eq_true.mpr ⟨y, hy, hp⟩)
    rw [hnone]
    simp

theorem find?_subst_map {x z : α} (hne : key z ≠ key x) :
    ∀ t : List α,
    (t.map (fun y => if key y == key z then z else y)).find?
      (fun y => key y == key x) = t.find? (fun y => key y == key x) := by
  intro t
  induction t with
  | nil => rfl
  | cons a t ih =>
    rw [List.map_cons, List.find?_cons, List.find?_cons]
    by_cases hkz : (key a == key z) = true
    · rw [if_pos hkz]
      have h1 : (key z == key x) = false := beq_eq_false_iff_ne.mpr hne
      have h2 : (key a == key x) = false := by
        rw [beq_eq_false_iff_ne]
        intro h
        exact hne (((eq_of_beq hkz).symm).trans h)
      rw [h1, h2]
      exact ih
    · rw [if_neg hkz]
      by_cases hk : (key a == key x) = true
      · rw [hk]
      · have hk' : (key a == key x) = false := by simpa using hk
        rw [hk']
        exact ih

/-- Inserting a value with a different key does not change a lookup. -/
theorem find?_dictInsert_other {x z : α} (hne : key z ≠ key x) (acc : List α) :
    (dictInsert key acc z).find? (fun y => key y == key x) =
    acc.find? (fun y => key y == key x) := by
  unfold dictInsert
  split
  · exact find?_subst_map key hne acc
  · rw [List.find?_append]
    have h1 : List.find? (fun y => key y == key x) [z] = none := by
      rw [List.find?_cons]
      rw [show (key z == key x) = false from beq_eq_false_iff_ne.mpr hne]
      rfl
    rw [h1]
    simp

/-- Last-wins: when `x` is the last entry of the input carrying its key,
the built dict's lookup of that key yields exactly `x`. -/
theorem dictOfList_last_wins {xs ys : List α} {x : α}
    (hys : ∀ y ∈ ys, key y ≠ key x) :
    (dictOfList key (xs ++ x :: ys)).find? (fun y => key y == key x) = some x := by
  unfold dictOfList
  rw [List.foldl_append, List.foldl_cons]
  have hbase : ((xs.foldl (dictInsert key) []).foldl (dictInsert key) ∅ = ∅) ∨ True :=
    Or.inr trivial
  have : ∀ (zs : List α) (acc : List α),
      (∀ z ∈ zs, key z ≠ key x) →
      acc.find? (fun y => key y == key x) = some x →
      (zs.foldl (dictInsert key) acc).find? (fun y => key y == key x) = some x := by
    intro zs
    induction zs with
    | nil => intro acc _ h; exact h
    | cons z zs ih =>
      intro acc hzs h
      rw [List.foldl_cons]
      exact ih _ (fun w hw => hzs w (by simp [hw]))
        ((find?_dictInsert_other key (hzs z (by simp)) acc).trans h)
  exact this ys _ hys (find?_dictInsert_self key _ x)

/-- A key carried by no input value looks up to nothing. -/
theorem find?_dictOfList_none {xs : List α} {k : String}
    (h : ∀ x ∈ xs, key x ≠ k) :
    (dictOfList key xs).find? (fun y => key y == k) = none := by
  rw [List.find?_eq_none]
  intro y hy hp
  exact h y (mem_dictOfList key hy) (eq_of_beq hp)

/-- Collapsing a `flatMap` over a dict to the single block whose key
matches: all other blocks vanish under the filter. -/
theorem filter_flatMap_single {β : Type} {l : List α} {g : α → List β}
    {p : β → Bool} {x : α} (hnd : (l.map key).Nodup) (hx : x ∈ l)
    (hother : ∀ y ∈ l, key y ≠ key x → (g y).filter p = []) :
    (l.flatMap g).filter p = (g x).filter p := by
  obtain ⟨s, t, rfl⟩ := List.append_of_mem hx
  have hmap : ((s ++ x :: t).map key) = s.map key ++ key x :: t.map key := by
    rw [List.map_append, List.map_cons]
  rw [hmap, List.nodup_middle, List.nodup_cons] at hnd
  have hst : ∀ y ∈ s ++ t, key y ≠ key x := by
    intro y hy heq
    exact hnd.1 (heq ▸ (by
      rw [← List.map_append]
      exact List.mem_map_of_mem key hy))
  rw [List.flatMap_append, List.flatMap_cons, List.filter_append,
    List.filter_append]
  have hs : (s.flatMap g).filter p = [] := by
    rw [List.filter_flatMap, List.flatMap_eq_nil_iff]
    intro y hy
    exact hother y (by simp [hy]) (hst y (by simp [hy]))
  have ht : (t.flatMap g).filter p = [] := by
    rw [List.filter_flatMap, List.flatMap_eq_nil_iff]
    intro y hy
    exact hother y (by simp [hy]) (hst y (by simp [hy]))
  rw [hs, ht, List.append_nil]
  rfl

end Dict

/-! ### Field lemmas for the diff-engine loop bodies -/

theorem matchedMethodChange_fields {hc : Contract} {bm : List Method}
    {m : Method} {ch : MemberChange} (h : ch ∈ matchedMethodChange hc bm m) :
    ch.contract = hc.name ∧ ch.method = m.name := by
  unfold matchedMethodChange at h
  split at h
  · split at h
    · rw [List.mem_singleton] at h
      subst h
      exact ⟨rfl, rfl⟩
    · simp at h
  · rw [List.mem_singleton] at h
    subst h
    exact ⟨rfl, rfl⟩

theorem deletedMethodChange_fields {hc bc : Contract} {hm : List Method}
    {m : Method} {ch : MemberChange} (h : ch ∈ deletedMethodChange hc bc hm m) :
    ch.contract = hc.name ∧ ch.method = m.name := by
  unfold deletedMethodChange at h
  split at h
  · simp at h
  · rw [List.mem_singleton] at h
    subst h
    exact ⟨rfl, rfl⟩

theorem headContractChanges_contract {M : List Contract} {hc : Contract}
    {ch : MemberChange} (h : ch ∈ headContractChanges M hc) :
    ch.contract = hc.name := by
  unfold headContractChanges at h
  split at h
  · rcases List.mem_append.mp h with h | h
    · obtain ⟨m, _, hm⟩ := List.mem_flatMap.mp h
      exact (matchedMethodChange_fields hm).1
    · obtain ⟨m, _, hm⟩ := List.mem_flatMap.mp h
      exact (deletedMethodChange_fields hm).1
  · obtain ⟨m, _, hm⟩ := List.mem_map.mp h
    subst hm
    rfl

theorem deletedContractChanges_mem {H : List Contract} {bc : Contract}
    {ch : MemberChange} (h : ch ∈ deletedContractChanges H bc) :
    ch.contract = bc.name ∧ H.any (fun c => c.name == bc.name) = false := by
  unfold deletedContractChanges at h
  split at h
  · simp at h
  case isFalse hany =>
    obtain ⟨m, _, hm⟩ := List.mem_map.mp h
    subst hm
    exact ⟨rfl, Bool.eq_false_iff.mpr hany⟩

theorem mem_key_dictInsert {α : Type} (key : α → String) {acc : List α}
    {k : String} (z : α) (h : (∃ y ∈ acc, key y = k) ∨ key z = k) :
    ∃ y ∈ dictInsert key acc z, key y = k := by
  unfold dictInsert
  split
  case isTrue hin =>
    rcases h with ⟨y, hy, hk⟩ | hk
    · by_cases hyz : (key y == key z) = true
      · exact ⟨z, List.mem_map.mpr ⟨y, hy, if_pos hyz⟩, (eq_of_beq hyz) ▸ hk⟩
      · exact ⟨y, List.mem_map.mpr ⟨y, hy, if_neg hyz⟩, hk⟩
    · obtain ⟨y, hy, hyz⟩ := List.any_eq_true.mp hin
      exact ⟨z, List.mem_map.mpr ⟨y, hy, if_pos hyz⟩, hk⟩
  · rcases h with ⟨y, hy, hk⟩ | hk
    · exact ⟨y, by simp [hy], hk⟩
    · exact ⟨z, by simp, hk⟩

/-- Every key present among the inserted values is present in the built
dict. -/
theorem dictOfList_mem_key {α : Type} (key : α → String) {xs : List α}
    {k : String} (h : ∃ y ∈ xs, key y = k) :
    ∃ y ∈ dictOfList key xs, key y = k := by
  unfold dictOfList
  suffices hgen : ∀ (xs acc : List α),
      ((∃ y ∈ acc, key y = k) ∨ (∃ y ∈ xs, key y = k)) →
      ∃ y ∈ xs.foldl (dictInsert key) acc, key y = k by
    exact hgen xs [] (Or.inr h)
  intro xs
  induction xs with
  | nil =>
    intro acc h
    rcases h with h | h
    · exact h
    · simp at h
  | cons z xs ih =>
    intro acc h
    rw [List.foldl_cons]
    apply ih
    rcases h with h | ⟨y, hy, hk⟩
    · exact Or.inl (mem_key_dictInsert key z (Or.inl h))
    · rcases List.mem_cons.mp hy with hy | hy
      · subst hy
        exact Or.inl (mem_key_dictInsert key y (Or.inr hk))
      · exact Or.inr ⟨y, hy, hk⟩

/-! ### Lemmas about the report aggregation -/

theorem groupStep_ne_nil (acc : List ContractEntry) (ch : MemberChange) :
    groupStep acc ch ≠ [] := by
  unfold groupStep
  split
  case isTrue hin =>
    have hacc : acc ≠ [] := by
      intro h
      rw [h] at hin
      simp at hin
    split
    · simp [hacc]
    · exact hacc
  case isFalse => simp

theorem foldl_groupStep_ne_nil (chs : List MemberChange) :
    ∀ acc : List ContractEntry, acc ≠ [] → chs.foldl groupStep acc ≠ [] := by
  induction chs with
  | nil => intro acc h; exact h
  | cons ch chs ih =>
    intro acc h
    rw [List.foldl_cons]
    exact ih _ (groupStep_ne_nil acc ch)

/-- The grouped report is empty exactly when the diff found nothing. -/
theorem groupChanges_eq_nil_iff (chs : List MemberChange) :
    groupChanges chs = [] ↔ chs = [] := by
  constructor
  · intro h
    cases chs with
    | nil => rfl
    | cons ch rest =>
      exfalso
      unfold groupChanges at h
      rw [List.foldl_cons] at h
      exact foldl_groupStep_ne_nil rest _ (groupStep_ne_nil [] ch) h
  · intro h
    rw [h]
    rfl

theorem mem_groupStep {acc : List ContractEntry} {ch : MemberChange}
    {e : ContractEntry} (h : e ∈ groupStep acc ch) :
    (∃ e₀ ∈ acc, e.name = e₀.name ∧ ∀ m ∈ e.methods,
      m ∈ e₀.methods ∨ (ch.contract = e.name ∧ ch.method = m ∧ ch.mstatus = none)) ∨
    (e.name = ch.contract ∧ ∀ m ∈ e.methods,
      ch.contract = e.name ∧ ch.method = m ∧ ch.mstatus = none) := by
  unfold groupStep at h
  split at h
  · split at h
    case isTrue hst =>
      obtain ⟨e₀, he₀, heq⟩ := List.mem_map.mp h
      by_cases hk : (e₀.name == ch.contract) = true
      · rw [if_pos hk] at heq
        left
        refine ⟨e₀, he₀, by rw [← heq], ?_⟩
        intro m hm
        rw [← heq] at hm
        simp only [] at hm
        rcases List.mem_append.mp hm with hm | hm
        · left; exact hm
        · right
          refine ⟨?_, (List.mem_singleton.mp hm).symm, hst⟩
          rw [← heq]
          exact (eq_of_beq hk).symm
      · rw [if_neg hk] at heq
        left
        exact ⟨e₀, he₀, by rw [← heq], fun m hm => Or.inl (heq ▸ hm)⟩
    case isFalse =>
      left
      exact ⟨e, h, rfl, fun m hm => Or.inl hm⟩
  · rcases List.mem_append.mp h with h | h
    · left
      exact ⟨e, h, rfl, fun m hm => Or.inl hm⟩
    · right
      have he := List.mem_singleton.mp h
      subst he
      refine ⟨rfl, ?_⟩
      intro m hm
      simp only [] at hm
      split at hm
      case isTrue hst => exact ⟨rfl, (List.mem_singleton.mp hm).symm, hst⟩
      case isFalse => simp at hm

/-- Every entry of the grouped report records the contract of some change,
and its member names all come from `"status"`-less (modified) changes of
that contract. -/
theorem mem_foldl_groupStep {chs : List MemberChange} :
    ∀ {acc : List ContractEntry} {e : ContractEntry},
    e ∈ chs.foldl groupStep acc →
    (∃ e₀ ∈ acc, e.name = e₀.name ∧ ∀ m ∈ e.methods,
      m ∈ e₀.methods ∨ (∃ ch ∈ chs, ch.contract = e.name ∧ ch.method = m ∧
        ch.mstatus = none)) ∨
    ((∃ ch ∈ chs, e.name = ch.contract) ∧ ∀ m ∈ e.methods,
      ∃ ch ∈ chs, ch.contract = e.name ∧ ch.method = m ∧ ch.mstatus = none) := by
  induction chs with
  | nil =>
    intro acc e h
    left
    exact ⟨e, h, rfl, fun m hm => Or.inl hm⟩
  | cons ch chs ih =>
    intro acc e h
    rw [List.foldl_cons] at h
    rcases ih h with ⟨e₀, he₀, hname, hms⟩ | ⟨⟨ch', hch', hname⟩, hms⟩
    · rcases mem_groupStep he₀ with ⟨e₁, he₁, hname₁, hms₁⟩ |
        ⟨hname₁, hms₁⟩
      · left
        refine ⟨e₁, he₁, hname.trans hname₁, ?_⟩
        intro m hm
        rcases hms m hm with hm₀ | ⟨ch₂, hch₂, hc⟩
        · rcases hms₁ m hm₀ with hm₁ | ⟨hc₁, hm₁, hst₁⟩
          · left; exact hm₁
          · right
            exact ⟨ch, by simp, by rw [hname]; exact hc₁, hm₁, hst₁⟩
        · right
          exact ⟨ch₂, by simp [hch₂], hc⟩
      · right
        constructor
        · exact ⟨ch, by simp, hname.trans hname₁⟩
        · intro m hm
          rcases hms m hm with hm₀ | ⟨ch₂, hch₂, hc⟩
          · rcases hms₁ m hm₀ with ⟨hc₁, hm₁, hst₁⟩
            exact ⟨ch, by simp, by rw [hname]; exact hc₁, hm₁, hst₁⟩
          · exact ⟨ch₂, by simp [hch₂], hc⟩
    · right
      refine ⟨⟨ch', by simp [hch'], hname⟩, ?_⟩
      intro m hm
      obtain ⟨ch₂, hch₂, hc⟩ := hms m hm
      exact ⟨ch₂, by simp [hch₂], hc⟩

/-- Entries already accumulated persist: same name, methods preserved. -/
theorem groupStep_persists {acc : List ContractEntry} {e : ContractEntry}
    (h : e ∈ acc) (ch : MemberChange) :
    ∃ e' ∈ groupStep acc ch, e'.name = e.name ∧ ∀ m ∈ e.methods, m ∈ e'.methods := by
  unfold groupStep
  split
  · split
    · refine ⟨if e.name == ch.contract then
        { e with methods := e.methods ++ [ch.method] } else e,
        List.mem_map_of_mem _ h, ?_, ?_⟩
      · by_cases hk : (e.name == ch.contract) = true
        · rw [if_pos hk]
        · rw [if_neg hk]
      · intro m hm
        by_cases hk : (e.name == ch.contract) = true
        · rw [if_pos hk]
          simp [hm]
        · rw [if_neg hk]
          exact hm
    · exact ⟨e, h, rfl, fun m hm => hm⟩
  · exact ⟨e, by simp [h], rfl, fun m hm => hm⟩

theorem foldl_groupStep_persists (chs : List MemberChange) :
    ∀ {acc : List ContractEntry} {e : ContractEntry}, e ∈ acc →
    ∃ e' ∈ chs.foldl groupStep acc, e'.name = e.name ∧
      ∀ m ∈ e.methods, m ∈ e'.methods := by
  induction chs with
  | nil => intro acc e h; exact ⟨e, h, rfl, fun m hm => hm⟩
  | cons ch chs ih =>
    intro acc e h
    obtain ⟨e₁, he₁, hname₁, hms₁⟩ := groupStep_persists h ch
    obtain ⟨e₂, he₂, hname₂, hms₂⟩ := ih he₁
    rw [List.foldl_cons]
    exact ⟨e₂, he₂, hname₂.trans hname₁, fun m hm => hms₂ m (hms₁ m hm)⟩

/-- Every change's contract gets an entry, and a modified change's method
name appears in it. -/
theorem foldl_groupStep_covers {chs : List MemberChange} :
    ∀ {acc : List ContractEntry} {ch : MemberChange}, ch ∈ chs →
    ∃ e ∈ chs.foldl groupStep acc, e.name = ch.contract ∧
      (ch.mstatus = none → ch.method ∈ e.methods) := by
  induction chs with
  | nil => intro acc ch h; simp at h
  | cons ch₀ chs ih =>
    intro acc ch h
    rw [List.foldl_cons]
    rcases List.mem_cons.mp h with h | h
    · subst h
      have hstep : ∃ e ∈ groupStep acc ch, e.name = ch.contract ∧
          (ch.mstatus = none → ch.method ∈ e.methods) := by
        unfold groupStep
        split
        case isTrue hin =>
          obtain ⟨e₀, he₀, hk⟩ := List.any_eq_true.mp hin
          split
          case isTrue hst =>
            refine ⟨{ e₀ with methods := e₀.methods ++ [ch.method] }, ?_, ?_, ?_⟩
            · have : (if e₀.name == ch.contract then
                  { e₀ with methods := e₀.methods ++ [ch.method] } else e₀) =
                  { e₀ with methods := e₀.methods ++ [ch.method] } := if_pos hk
              rw [← this]
              exact List.mem_map_of_mem _ he₀
            · exact eq_of_beq hk
            · intro _; simp
          case isFalse hst =>
            exact ⟨e₀, he₀, eq_of_beq hk, fun h => absurd h hst⟩
        case isFalse hin =>
          refine ⟨ContractEntry.mk ch.contract ch.contract_type
            (if ch.mstatus = none then [ch.method] else []), by simp, rfl, ?_⟩
          intro hst
          rw [if_pos hst]
          simp
      obtain ⟨e, he, hname, hmeth⟩ := hstep
      obtain ⟨e', he', hname', hms'⟩ := foldl_groupStep_persists chs he
      exact ⟨e', he', hname'.trans hname, fun h => hms' _ (hmeth h)⟩
    · exact ih h

/-- The per-file loop is compositional: each file contributes its entries
independently of the others. -/
theorem analyze_changes_append (extract : String → List Contract) :
    ∀ l₁ l₂ : List FileInput,
    analyze_changes extract (l₁ ++ l₂) =
      analyze_changes extract l₁ ++ analyze_changes extract l₂ := by
  intro l₁ l₂
  induction l₁ with
  | nil => rfl
  | cons f l₁ ih =>
    rw [List.cons_append, analyze_changes, analyze_changes, ih]
    split
    · rfl
    · split
      · split
        · rfl
        · split <;> rfl
      · rfl

theorem compare_methods_self (m : Method) : compare_methods m m = false := by
  unfold compare_methods
  exact bne_self_eq_false _

/-! ### The claims -/

/-- C6: running the Diff Engine with the same catalog as both base and
head yields no `MemberChange` records. -/
theorem claim6_diff_self_empty (cat : List Contract) :
    find_changed_methods cat cat = [] := by
  unfold find_changed_methods mkContractMap
  rw [List.append_eq_nil]
  constructor
  · rw [List.flatMap_eq_nil_iff]
    intro hc hmem
    unfold headContractChanges
    rw [find?_self_of_nodup Contract.name (dictOfList_nodup Contract.name cat) hmem]
    show (dictOfList Method.name hc.methods).flatMap
        (matchedMethodChange hc (dictOfList Method.name hc.methods)) ++
      (dictOfList Method.name hc.methods).flatMap
        (deletedMethodChange hc hc (dictOfList Method.name hc.methods)) = []
    rw [List.append_eq_nil]
    constructor
    · rw [List.flatMap_eq_nil_iff]
      intro m hm
      unfold matchedMethodChange
      rw [find?_self_of_nodup Method.name
        (dictOfList_nodup Method.name hc.methods) hm]
      simp [compare_methods_self]
    · rw [List.flatMap_eq_nil_iff]
      intro m hm
      unfold deletedMethodChange
      rw [if_pos]
      exact List.any_eq_true.mpr ⟨m, hm, by simp⟩
  · rw [List.flatMap_eq_nil_iff]
    intro bc hmem
    unfold deletedContractChanges
    rw [if_pos]
    exact List.any_eq_true.mpr ⟨bc, hmem, by simp⟩

/-- C7: the normalizer is idempotent — normalizing its own output returns
that output unchanged. -/
theorem claim7_normalize_idempotent (t : String) :
    remove_comments_and_normalize (remove_comments_and_normalize t) =
    remove_comments_and_normalize t := by
  show (normalizeL ((normalizeL t.toList).asString).toList).asString =
    (normalizeL t.toList).asString
  rw [show ((normalizeL t.toList).asString).toList = normalizeL t.toList from rfl,
    normalizeL_idem]

/-- C9: modification detection is symmetric — `compare_methods a b` equals
`compare_methods b a` for all method records. -/
theorem claim9_compare_methods_symm (a b : Method) :
    compare_methods a b = compare_methods b a := by
  unfold compare_methods
  by_cases h : remove_comments_and_normalize (pyStrip a.text.toList).asString =
      remove_comments_and_normalize (pyStrip b.text.toList).asString
  · rw [h]
  · have h1 := bne_iff_ne.mpr h
    have h2 := bne_iff_ne.mpr (Ne.symm h)
    simp only [h1, h2]

/-- C10: for every input, the normalizer's output contains no newline
character and has no leading or trailing whitespace — including multi-line
inputs and inputs ending inside an unterminated block comment. -/
theorem claim10_normalize_output_clean (t : String) :
    '\n' ∉ (remove_comments_and_normalize t).toList ∧
    (∀ c, (remove_comments_and_normalize t).toList.head? = some c →
      pyIsSpace c = false) ∧
    (∀ c, (remove_comments_and_normalize t).toList.getLast? = some c →
      pyIsSpace c = false) := by
  obtain ⟨h1, h2, h3, _, _⟩ := normalizeL_good t.toList
  exact ⟨h1, h2, h3⟩

/-- C2 counterexample: the normalizer does NOT collapse every whitespace
run to a single space.  On the comment-free input `"a  b"` the spec's
described normal form is `"a b"`, but the code returns `"a  b"`: the
interior two-space run survives (runs inside a single line are only
trimmed at the line's ends, never collapsed). -/
theorem claim2_counterexample :
    remove_comments_and_normalize "a  b" = "a  b" ∧
    hasPair ' ' ' ' (remove_comments_and_normalize "a  b").toList = true ∧
    ("a  b" : String) ≠ "a b" := by
  refine ⟨rfl, rfl, by decide⟩

/-- C2 (amended): the normalizer removes comments, trims every line,
drops blank lines and joins the remaining lines with single spaces —
so newline runs and indentation collapse, while whitespace runs inside a
line are preserved verbatim.  Consequently reformatting that only adds or
removes blank lines or indentation does not change the NormalizedText. -/
theorem claim2_normalize_reformat_insensitive (s t : String)
    (h : Reformat (splitNL s.toList) (splitNL t.toList)) :
    remove_comments_and_normalize s = remove_comments_and_normalize t := by
  show (normalizeL s.toList).asString = (normalizeL t.toList).asString
  rw [normalizeL_reformat h]

/-- Witness for C2: re-indenting a member and inserting a blank line does
not change its normalized text. -/
theorem claim2_witness :
    remove_comments_and_normalize "ab\ncd" =
    remove_comments_and_normalize "  ab\n\ncd" :=
  claim2_normalize_reformat_insensitive "ab\ncd" "  ab\n\ncd" (by
    show Reformat [['a', 'b'], ['c', 'd']] [[' ', ' ', 'a', 'b'], [], ['c', 'd']]
    exact Reformat.line [] [' ', ' '] ['a', 'b'] (by simp) (by decide)
      (Reformat.blankR [] (by simp)
        (Reformat.line [] [] ['c', 'd'] (by simp) (by simp) Reformat.nil)))

/-- C3: for a file with status `"A"`, the report entry lists every
extracted declaration of the head revision with every one of its members,
and the result is independent of the base content — the Diff Engine is
never consulted for that file. -/
theorem claim3_added_file_all_members (extract : String → List Contract)
    (f : FileInput) (fs : List FileInput) (h : f.fstatus = "A") :
    (analyze_changes extract (f :: fs) =
      { file := f.path, fstatus := f.fstatus,
        contracts := (extract f.headContent).map (fun c =>
          { name := c.name, ctype := c.ctype,
            methods := c.methods.map (fun m => m.name) }) } ::
        analyze_changes extract fs) ∧
    ∀ b : String, analyze_changes extract ({ f with baseContent := b } :: fs) =
      analyze_changes extract (f :: fs) := by
  constructor
  · rw [analyze_changes, if_pos (by simp [h])]
  · intro b
    rw [analyze_changes, if_pos (by simp [h]),
      analyze_changes, if_pos (by simp [h])]

/-- Witness for C3 at a concrete catalog: the added file's entry lists the
whole extracted catalog, whatever the base content is. -/
theorem claim3_witness :
    (analyze_changes (fun _ => [Contract.mk "C" "contract" [Method.mk "f" "x"]])
        [FileInput.mk "n.sol" "A" "h" "b"] =
      [FileEntry.mk "n.sol" "A" [ContractEntry.mk "C" "contract" ["f"]]]) ∧
    ∀ b : String,
      analyze_changes (fun _ => [Contract.mk "C" "contract" [Method.mk "f" "x"]])
        [{ FileInput.mk "n.sol" "A" "h" "b" with baseContent := b }] =
      analyze_changes (fun _ => [Contract.mk "C" "contract" [Method.mk "f" "x"]])
        [FileInput.mk "n.sol" "A" "h" "b"] := by
  have h := claim3_added_file_all_members
    (fun _ => [Contract.mk "C" "contract" [Method.mk "f" "x"]])
    (FileInput.mk "n.sol" "A" "h" "b") [] rfl
  exact ⟨h.1.trans rfl, h.2⟩

/-- C8: a modified file whose base-revision content is empty is skipped —
no report entry is produced for it, and the remaining files (before and
after it) are analyzed exactly as if that file were absent. -/
theorem claim8_missing_base_skipped (extract : String → List Contract)
    (f : FileInput) (pre post : List FileInput)
    (hM : f.fstatus = "M") (hB : f.baseContent = "") :
    analyze_changes extract (pre ++ f :: post) =
      analyze_changes extract (pre ++ post) := by
  rw [analyze_changes_append, analyze_changes_append]
  congr 1
  rw [analyze_changes, if_neg (by simp [hM]), if_pos (by simp [hM]),
    if_pos (by simp [hB])]

/-- Witness for C8: a middle file with status `"M"` and empty base content
drops out of the analysis. -/
theorem claim8_witness :
    analyze_changes (fun _ => [])
      ([FileInput.mk "p.sol" "A" "h1" "b1"] ++
        FileInput.mk "m.sol" "M" "h2" "" :: [FileInput.mk "q.sol" "A" "h3" "b3"]) =
    analyze_changes (fun _ => [])
      ([FileInput.mk "p.sol" "A" "h1" "b1"] ++ [FileInput.mk "q.sol" "A" "h3" "b3"]) :=
  claim8_missing_base_skipped (fun _ => [])
    (FileInput.mk "m.sol" "M" "h2" "") _ _ rfl rfl

/-- C1 counterexample: base has contract `C` with member `f`; head adds a
member `g` to `C` and changes nothing else.  The only MemberChange is an
`added` one, yet the analyzer emits a `ContractChangeSummary` for `C` —
with an empty member list — and the file DOES appear in the final report.
This refutes both parts of the claim: a contract with no modified member
still contributes a summary entry, and a file with no non-empty summary
still appears in the report. -/
theorem claim1_counterexample :
    analyze_changes
      (fun s => if s == "b" then [Contract.mk "C" "contract" [Method.mk "f" "x"]]
        else [Contract.mk "C" "contract" [Method.mk "f" "x", Method.mk "g" "y"]])
      [FileInput.mk "a.sol" "M" "h" "b"] =
      [FileEntry.mk "a.sol" "M" [ContractEntry.mk "C" "contract" []]] := by
  rfl

/-- C1 (amended): for a modified file, a contract contributes a
`ContractChangeSummary` exactly when at least one of its members has a
MemberChange of ANY status (modified, added or deleted); the summary's
member list contains exactly the members whose change is a modification
(so it is empty when the contract's only changes are added/deleted
members).  The file appears in the final report exactly when the diff
produced at least one MemberChange — not only when some summary is
non-empty. -/
theorem claim1_summary_for_any_change :
    (∀ chs : List MemberChange,
      (groupChanges chs = [] ↔ chs = []) ∧
      (∀ e ∈ groupChanges chs,
        (∃ ch ∈ chs, e.name = ch.contract) ∧
        ∀ m ∈ e.methods, ∃ ch ∈ chs,
          ch.contract = e.name ∧ ch.method = m ∧ ch.mstatus = none) ∧
      (∀ ch ∈ chs, ∃ e ∈ groupChanges chs, e.name = ch.contract ∧
        (ch.mstatus = none → ch.method ∈ e.methods))) ∧
    ∀ (extract : String → List Contract) (f : FileInput) (fs : List FileInput),
      f.fstatus = "M" → f.baseContent ≠ "" →
      analyze_changes extract (f :: fs) =
        (if find_changed_methods (extract f.baseContent) (extract f.headContent) = []
         then analyze_changes extract fs
         else { file := f.path, fstatus := f.fstatus,
                contracts := groupChanges (find_changed_methods
                  (extract f.baseContent) (extract f.headContent)) } ::
              analyze_changes extract fs) := by
  constructor
  · intro chs
    refine ⟨groupChanges_eq_nil_iff chs, ?_, ?_⟩
    · intro e he
      rcases @mem_foldl_groupStep chs [] e he with
        ⟨e₀, he₀, _⟩ | ⟨hname, hms⟩
      · simp at he₀
      · exact ⟨hname, hms⟩
    · intro ch hch
      exact foldl_groupStep_covers hch
  · intro extract f fs hM hB
    rw [analyze_changes, if_neg (by simp [hM]), if_pos (by simp [hM]),
      if_neg (by simp [hB])]
    by_cases hnil :
        find_changed_methods (extract f.baseContent) (extract f.headContent) = []
    · rw [if_pos hnil, if_pos]
      rw [List.isEmpty_iff, groupChanges_eq_nil_iff]
      exact hnil
    · rw [if_neg hnil, if_neg]
      intro hemp
      rw [List.isEmpty_iff, groupChanges_eq_nil_iff] at hemp
      exact hnil hemp

/-- Witness for C1 (amended), at the counterexample's input: the single
`added` change yields the empty-membered summary for `C`, and the file
entry is present. -/
theorem claim1_witness :
    analyze_changes
      (fun s => if s == "b" then [Contract.mk "C" "contract" [Method.mk "f" "x"]]
        else [Contract.mk "C" "contract" [Method.mk "f" "x", Method.mk "g" "y"]])
      [FileInput.mk "a.sol" "M" "h" "b"] =
      (if find_changed_methods
          [Contract.mk "C" "contract" [Method.mk "f" "x"]]
          [Contract.mk "C" "contract" [Method.mk "f" "x", Method.mk "g" "y"]] = []
       then ([] : List FileEntry)
       else [{ file := "a.sol", fstatus := "M",
               contracts := groupChanges (find_changed_methods
                 [Contract.mk "C" "contract" [Method.mk "f" "x"]]
                 [Contract.mk "C" "contract"
                   [Method.mk "f" "x", Method.mk "g" "y"]]) }]) :=
  (claim1_summary_for_any_change.2
    (fun s => if s == "b" then [Contract.mk "C" "contract" [Method.mk "f" "x"]]
      else [Contract.mk "C" "contract" [Method.mk "f" "x", Method.mk "g" "y"]])
    (FileInput.mk "a.sol" "M" "h" "b") [] rfl (by decide))

/-- C4 counterexample: a head revision carrying two declarations both
named `C` (first with member `f`, then with member `g`), in a file with
status `"A"`.  The claim says every part of the output reflects only the
LAST same-named declaration, but the added-file report lists BOTH: the
first duplicate's entry (`methods = ["f"]`) appears alongside the
last one's. -/
theorem claim4_counterexample :
    analyze_changes
      (fun _ => [Contract.mk "C" "contract" [Method.mk "f" "x"],
        Contract.mk "C" "contract" [Method.mk "g" "y"]])
      [FileInput.mk "d.sol" "A" "h" "b"] =
      [FileEntry.mk "d.sol" "A"
        [ContractEntry.mk "C" "contract" ["f"],
         ContractEntry.mk "C" "contract" ["g"]]] := by
  rfl

/-- C4 (amended): in the Diff Engine, the last same-named declaration
encountered wins in BOTH revisions — the diff records carrying a
duplicated contract name are exactly those computed from the last
declaration with that name, whether the duplicates sit in the head
catalog (first conjunct) or in the base catalog (second conjunct).  In
the added-file report path, however, no deduplication happens: the entry
lists one ContractChangeSummary per extracted declaration, so every
same-named duplicate appears, not only the last. -/
theorem claim4_last_declaration_wins :
    (∀ (B xs ys : List Contract) (x : Contract),
      (∀ y ∈ ys, y.name ≠ x.name) →
      (find_changed_methods B (xs ++ x :: ys)).filter
        (fun ch => ch.contract == x.name) =
      (find_changed_methods B [x]).filter (fun ch => ch.contract == x.name)) ∧
    (∀ (H xs ys : List Contract) (x : Contract),
      (∀ y ∈ ys, y.name ≠ x.name) →
      (find_changed_methods (xs ++ x :: ys) H).filter
        (fun ch => ch.contract == x.name) =
      (find_changed_methods [x] H).filter (fun ch => ch.contract == x.name)) ∧
    ∀ (extract : String → List Contract) (f : FileInput) (fs : List FileInput),
      f.fstatus = "A" →
      analyze_changes extract (f :: fs) =
        { file := f.path, fstatus := f.fstatus,
          contracts := (extract f.headContent).map (fun c =>
            { name := c.name, ctype := c.ctype,
              methods := c.methods.map (fun m => m.name) }) } ::
        analyze_changes extract fs := by
  refine ⟨?_, ?_, ?_⟩
  · intro B xs ys x hys
    unfold find_changed_methods mkContractMap
    rw [List.filter_append, List.filter_append]
    have hfind := @dictOfList_last_wins Contract Contract.name xs ys x hys
    have hxmem := List.mem_of_find?_eq_some hfind
    have hheadL : ((dictOfList Contract.name (xs ++ x :: ys)).flatMap
        (headContractChanges (dictOfList Contract.name B))).filter
        (fun ch => ch.contract == x.name) =
        (headContractChanges (dictOfList Contract.name B) x).filter
        (fun ch => ch.contract == x.name) := by
      apply filter_flatMap_single Contract.name
        (dictOfList_nodup Contract.name (xs ++ x :: ys)) hxmem
      intro y _ hne
      rw [List.filter_eq_nil_iff]
      intro ch hch
      rw [headContractChanges_contract hch]
      simp [beq_eq_false_iff_ne.mpr hne]
    have hheadR : ((dictOfList Contract.name [x]).flatMap
        (headContractChanges (dictOfList Contract.name B))).filter
        (fun ch => ch.contract == x.name) =
        (headContractChanges (dictOfList Contract.name B) x).filter
        (fun ch => ch.contract == x.name) := by
      rw [show dictOfList Contract.name [x] = [x] from rfl]
      simp
    have hdelL : ((dictOfList Contract.name B).flatMap
        (deletedContractChanges (dictOfList Contract.name (xs ++ x :: ys)))).filter
        (fun ch => ch.contract == x.name) = [] := by
      rw [List.filter_flatMap, List.flatMap_eq_nil_iff]
      intro bc _
      rw [List.filter_eq_nil_iff]
      intro ch hch
      obtain ⟨hcon, hany⟩ := deletedContractChanges_mem hch
      rw [hcon]
      rw [List.any_eq_false] at hany
      have := hany x hxmem
      simp only [Bool.not_eq_true, beq_eq_false_iff_ne] at this
      simp [beq_eq_false_iff_ne.mpr (Ne.symm this)]
    have hdelR : ((dictOfList Contract.name B).flatMap
        (deletedContractChanges (dictOfList Contract.name [x]))).filter
        (fun ch => ch.contract == x.name) = [] := by
      rw [List.filter_flatMap, List.flatMap_eq_nil_iff]
      intro bc _
      rw [List.filter_eq_nil_iff]
      intro ch hch
      obtain ⟨hcon, hany⟩ := deletedContractChanges_mem hch
      rw [hcon]
      rw [show dictOfList Contract.name [x] = [x] from rfl] at hany
      rw [List.any_eq_false] at hany
      have := hany x (by simp)
      simp only [Bool.not_eq_true, beq_eq_false_iff_ne] at this
      simp [beq_eq_false_iff_ne.mpr (Ne.symm this)]
    rw [hheadL, hheadR, hdelL, hdelR]
  · intro H xs ys x hys
    unfold find_changed_methods mkContractMap
    rw [List.filter_append, List.filter_append]
    have hfind := @dictOfList_last_wins Contract Contract.name xs ys x hys
    have hxmem := List.mem_of_find?_eq_some hfind
    have hhead : ((dictOfList Contract.name H).flatMap
        (headContractChanges (dictOfList Contract.name (xs ++ x :: ys)))).filter
        (fun ch => ch.contract == x.name) =
        ((dictOfList Contract.name H).flatMap
          (headContractChanges (dictOfList Contract.name [x]))).filter
        (fun ch => ch.contract == x.name) := by
      rw [List.filter_flatMap, List.filter_flatMap]
      apply List.flatMap_congr
      intro hc _
      by_cases hn : hc.name = x.name
      · have hL : (dictOfList Contract.name (xs ++ x :: ys)).find?
            (fun c => c.name == hc.name) = some x := by
          rw [hn]
          exact hfind
        have hR : (dictOfList Contract.name [x]).find?
            (fun c => c.name == hc.name) = some x := by
          rw [show dictOfList Contract.name [x] = [x] from rfl, List.find?_cons,
            show (x.name == hc.name) = true from by rw [hn]; exact beq_self_eq_true _]
        unfold headContractChanges
        rw [hL, hR]
      · have hnil : ∀ M : List Contract,
            (headContractChanges M hc).filter
              (fun ch => ch.contract == x.name) = [] := by
          intro M
          rw [List.filter_eq_nil_iff]
          intro ch hch
          rw [headContractChanges_contract hch]
          simp [beq_eq_false_iff_ne.mpr hn]
        rw [hnil, hnil]
    have hdelL : ((dictOfList Contract.name (xs ++ x :: ys)).flatMap
        (deletedContractChanges (dictOfList Contract.name H))).filter
        (fun ch => ch.contract == x.name) =
        (deletedContractChanges (dictOfList Contract.name H) x).filter
        (fun ch => ch.contract == x.name) := by
      apply filter_flatMap_single Contract.name
        (dictOfList_nodup Contract.name (xs ++ x :: ys)) hxmem
      intro y _ hne
      rw [List.filter_eq_nil_iff]
      intro ch hch
      rw [(deletedContractChanges_mem hch).1]
      simp [beq_eq_false_iff_ne.mpr hne]
    have hdelR : ((dictOfList Contract.name [x]).flatMap
        (deletedContractChanges (dictOfList Contract.name H))).filter
        (fun ch => ch.contract == x.name) =
        (deletedContractChanges (dictOfList Contract.name H) x).filter
        (fun ch => ch.contract == x.name) := by
      rw [show dictOfList Contract.name [x] = [x] from rfl]
      simp
    rw [hhead, hdelL, hdelR]
  · intro extract f fs h
    rw [analyze_changes, if_pos (by simp [h])]

/-- Witness for C4 at concrete catalogs: the records the Diff Engine
emits for the duplicated name `C` come from the last `C` declaration
with that name — both when the duplicates are in the head catalog and
when they are in the base catalog — and the concrete added-file entry is
the raw per-declaration listing. -/
theorem claim4_witness :
    ((find_changed_methods []
        ([Contract.mk "C" "contract" [Method.mk "f" "x"]] ++
          Contract.mk "C" "contract" [Method.mk "g" "y"] :: [])).filter
      (fun ch => ch.contract == (Contract.mk "C" "contract"
        [Method.mk "g" "y"]).name) =
    (find_changed_methods [] [Contract.mk "C" "contract" [Method.mk "g" "y"]]).filter
      (fun ch => ch.contract == (Contract.mk "C" "contract"
        [Method.mk "g" "y"]).name)) ∧
    ((find_changed_methods
        ([Contract.mk "C" "contract" [Method.mk "f" "x"]] ++
          Contract.mk "C" "contract" [Method.mk "g" "y"] :: []) []).filter
      (fun ch => ch.contract == (Contract.mk "C" "contract"
        [Method.mk "g" "y"]).name) =
    (find_changed_methods [Contract.mk "C" "contract" [Method.mk "g" "y"]] []).filter
      (fun ch => ch.contract == (Contract.mk "C" "contract"
        [Method.mk "g" "y"]).name)) ∧
    analyze_changes
      (fun _ => [Contract.mk "C" "contract" [Method.mk "f" "x"],
        Contract.mk "C" "contract" [Method.mk "g" "y"]])
      [FileInput.mk "d.sol" "A" "h" "b"] =
      { file := "d.sol", fstatus := "A",
        contracts := ([Contract.mk "C" "contract" [Method.mk "f" "x"],
          Contract.mk "C" "contract" [Method.mk "g" "y"]]).map (fun c =>
            { name := c.name, ctype := c.ctype,
              methods := c.methods.map (fun m => m.name) }) } ::
        analyze_changes
          (fun _ => [Contract.mk "C" "contract" [Method.mk "f" "x"],
            Contract.mk "C" "contract" [Method.mk "g" "y"]]) [] :=
  ⟨claim4_last_declaration_wins.1 [] [Contract.mk "C" "contract" [Method.mk "f" "x"]]
    [] (Contract.mk "C" "contract" [Method.mk "g" "y"]) (by simp),
   claim4_last_declaration_wins.2.1 []
    [Contract.mk "C" "contract" [Method.mk "f" "x"]]
    [] (Contract.mk "C" "contract" [Method.mk "g" "y"]) (by simp),
   claim4_last_declaration_wins.2.2
    (fun _ => [Contract.mk "C" "contract" [Method.mk "f" "x"],
      Contract.mk "C" "contract" [Method.mk "g" "y"]])
    (FileInput.mk "d.sol" "A" "h" "b") [] rfl⟩

/-- C5: a member name present in a head contract but absent (by name)
from the matching base contract yields exactly one MemberChange record
from the Diff Engine, and that record has status `added` — never
modified or deleted. -/
theorem claim5_head_only_member_added (B H : List Contract)
    (cname mname : String) (hc bc : Contract)
    (hhc : (mkContractMap H).find? (fun c => c.name == cname) = some hc)
    (hbc : (mkContractMap B).find? (fun c => c.name == cname) = some bc)
    (hpresent : hc.methods.any (fun m => m.name == mname) = true)
    (habsent : bc.methods.all (fun m => m.name != mname) = true) :
    (find_changed_methods B H).filter
      (fun ch => ch.contract == cname && ch.method == mname) =
    [{ contract := cname, contract_type := hc.ctype,
       method := mname, mstatus := some "added" }] := by
  have hcname : hc.name = cname := by
    have h := List.find?_some hhc
    simpa using h
  subst hcname
  obtain ⟨m₀, hm₀mem, hm₀name⟩ := @dictOfList_mem_key Method Method.name
    hc.methods mname (by
      obtain ⟨m, hm, hmn⟩ := List.any_eq_true.mp hpresent
      exact ⟨m, hm, eq_of_beq hmn⟩)
  subst hm₀name
  unfold mkContractMap at hhc hbc
  unfold find_changed_methods mkContractMap
  rw [List.filter_append]
  have hxmem := List.mem_of_find?_eq_some hhc
  have hdel : ((dictOfList Contract.name B).flatMap
      (deletedContractChanges (dictOfList Contract.name H))).filter
      (fun ch => ch.contract == hc.name && ch.method == m₀.name) = [] := by
    rw [List.filter_flatMap, List.flatMap_eq_nil_iff]
    intro bc' _
    rw [List.filter_eq_nil_iff]
    intro ch hch
    obtain ⟨hcon, hany⟩ := deletedContractChanges_mem hch
    rw [List.any_eq_false] at hany
    have hne := hany hc hxmem
    simp only [Bool.not_eq_true, beq_eq_false_iff_ne] at hne
    rw [hcon]
    simp [beq_eq_false_iff_ne.mpr (Ne.symm hne)]
  have hhead : ((dictOfList Contract.name H).flatMap
      (headContractChanges (dictOfList Contract.name B))).filter
      (fun ch => ch.contract == hc.name && ch.method == m₀.name) =
      (headContractChanges (dictOfList Contract.name B) hc).filter
      (fun ch => ch.contract == hc.name && ch.method == m₀.name) := by
    apply filter_flatMap_single Contract.name
      (dictOfList_nodup Contract.name H) hxmem
    intro y _ hne
    rw [List.filter_eq_nil_iff]
    intro ch hch
    rw [headContractChanges_contract hch]
    simp [beq_eq_false_iff_ne.mpr hne]
  rw [hhead, hdel, List.append_nil]
  unfold headContractChanges
  rw [hbc]
  show ((dictOfList Method.name hc.methods).flatMap
      (matchedMethodChange hc (dictOfList Method.name bc.methods)) ++
    (dictOfList Method.name bc.methods).flatMap
      (deletedMethodChange hc bc (dictOfList Method.name hc.methods))).filter
      (fun ch => ch.contract == hc.name && ch.method == m₀.name) = _
  rw [List.filter_append]
  have hdelM : ((dictOfList Method.name bc.methods).flatMap
      (deletedMethodChange hc bc (dictOfList Method.name hc.methods))).filter
      (fun ch => ch.contract == hc.name && ch.method == m₀.name) = [] := by
    rw [List.filter_flatMap, List.flatMap_eq_nil_iff]
    intro m hm
    rw [List.filter_eq_nil_iff]
    intro ch hch
    obtain ⟨_, hmeth⟩ := deletedMethodChange_fields hch
    have hmmem : m ∈ bc.methods := mem_dictOfList Method.name hm
    have hbne := List.all_eq_true.mp habsent m hmmem
    rw [bne_iff_ne] at hbne
    rw [hmeth]
    simp [beq_eq_false_iff_ne.mpr hbne]
  have hmatched : ((dictOfList Method.name hc.methods).flatMap
      (matchedMethodChange hc (dictOfList Method.name bc.methods))).filter
      (fun ch => ch.contract == hc.name && ch.method == m₀.name) =
      (matchedMethodChange hc (dictOfList Method.name bc.methods) m₀).filter
      (fun ch => ch.contract == hc.name && ch.method == m₀.name) := by
    apply filter_flatMap_single Method.name
      (dictOfList_nodup Method.name hc.methods) hm₀mem
    intro m' _ hne
    rw [List.filter_eq_nil_iff]
    intro ch hch
    obtain ⟨_, hmeth⟩ := matchedMethodChange_fields hch
    rw [hmeth]
    simp [beq_eq_false_iff_ne.mpr hne]
  rw [hmatched, hdelM, List.append_nil]
  unfold matchedMethodChange
  have hnone : (dictOfList Method.name bc.methods).find?
      (fun m => m.name == m₀.name) = none := by
    apply find?_dictOfList_none
    intro m hm heq
    have hbne := List.all_eq_true.mp habsent m hm
    rw [bne_iff_ne] at hbne
    exact hbne heq
  rw [hnone]
  simp

/-- Witness for C5 at concrete catalogs: base `C = {f}`, head
`C = {f, g}` — the member `g` yields exactly one record, an `added` one. -/
theorem claim5_witness :
    (find_changed_methods
      [Contract.mk "C" "contract" [Method.mk "f" "x"]]
      [Contract.mk "C" "contract" [Method.mk "f" "x", Method.mk "g" "y"]]).filter
      (fun ch => ch.contract == "C" && ch.method == "g") =
    [{ contract := "C",
       contract_type := (Contract.mk "C" "contract"
         [Method.mk "f" "x", Method.mk "g" "y"]).ctype,
       method := "g", mstatus := some "added" }] :=
  claim5_head_only_member_added
    [Contract.mk "C" "contract" [Method.mk "f" "x"]]
    [Contract.mk "C" "contract" [Method.mk "f" "x", Method.mk "g" "y"]]
    "C" "g"
    (Contract.mk "C" "contract" [Method.mk "f" "x", Method.mk "g" "y"])
    (Contract.mk "C" "contract" [Method.mk "f" "x"])
    rfl rfl (by decide) (by decide)

end ChangeAnalyzer
